import Mathlib

/-!
Verification of the `vcleaner` text-cleaning utility (src/vcleaner.py).

The program is a single pass over a decoded character sequence. We embed
characters as their Unicode code point values (`Nat`), a character stream as
`List Nat`, and the two user-facing operations (`clean_text_file`,
`show_hidden_chars`) as pure functions whose file-system effects (reads and
writes) are made explicit: the outcome of the read and the write are passed in
as parameters, and the printed report and the written file are returned as
data.  A Python exception that escapes a function is modelled by the
`PyOutcome.raised` constructor.
-/

namespace VCleaner

/-- The allowed-character condition of `clean_text_file`
(src/vcleaner.py line 37): `(32 <= ascii_val <= 126) or ascii_val in [9, 10, 13]`. -/
def allowedCond (ascii_val : Nat) : Bool :=
  (decide (32 ≤ ascii_val) && decide (ascii_val ≤ 126)) || [9, 10, 13].contains ascii_val

/-- The hidden-character condition of `show_hidden_chars`
(src/vcleaner.py line 76): `not ((32 <= ascii_val <= 126) or ascii_val in [9, 10, 13])`. -/
def showHiddenCond (ascii_val : Nat) : Bool :=
  !((decide (32 ≤ ascii_val) && decide (ascii_val ≤ 126)) || [9, 10, 13].contains ascii_val)

/-- The two classification tags of the spec's `classify` contract. -/
inductive Classification : Type where
  | Allowed : Classification
  | Hidden : Classification
deriving DecidableEq, Repr

/-- The classification both operations apply to each code point: the inline
condition of src/vcleaner.py lines 37 and 76, read as a total function to a tag. -/
def classify (c : Nat) : Classification :=
  if allowedCond c then Classification.Allowed else Classification.Hidden

theorem allowedCond_iff (c : Nat) :
    allowedCond c = true ↔ ((32 ≤ c ∧ c ≤ 126) ∨ c = 9 ∨ c = 10 ∨ c = 13) := by
  simp [allowedCond, List.contains]

theorem showHiddenCond_eq_not_allowed (c : Nat) : showHiddenCond c = !(allowedCond c) := by
  simp [showHiddenCond, allowedCond]

/-- The character-removal loop of `clean_text_file` (src/vcleaner.py lines
33-40), with the mutable `cleaned` string and `hidden_count` counter passed as
accumulators. -/
def cleanLoop : List Nat → List Nat → Nat → List Nat × Nat
  | [], cleaned, hidden_count => (cleaned, hidden_count)
  | char :: rest, cleaned, hidden_count =>
    if allowedCond char then cleanLoop rest (cleaned ++ [char]) hidden_count
    else cleanLoop rest cleaned (hidden_count + 1)

/-- The clean pass over a whole content stream: the loop started from the
empty output string and a zero counter, returning `(cleaned, hidden_count)`. -/
def cleanPass (content : List Nat) : List Nat × Nat := cleanLoop content [] 0

theorem cleanLoop_eq (content : List Nat) : ∀ (cleaned : List Nat) (hidden_count : Nat),
    cleanLoop content cleaned hidden_count
      = (cleaned ++ content.filter (fun c => allowedCond c),
         hidden_count + content.countP (fun c => !allowedCond c)) := by
  induction content with
  | nil => intro cleaned hidden_count; simp [cleanLoop]
  | cons char rest ih =>
    intro cleaned hidden_count
    by_cases h : allowedCond char = true
    · simp [cleanLoop, h, ih, List.filter_cons, List.countP_cons]
    · simp [cleanLoop, h, ih, List.filter_cons, List.countP_cons]
      omega

theorem cleanPass_eq (content : List Nat) :
    cleanPass content
      = (content.filter (fun c => allowedCond c),
         content.countP (fun c => !allowedCond c)) := by
  simp [cleanPass, cleanLoop_eq]

theorem length_filter_add_countP_not (p : Nat → Bool) (l : List Nat) :
    (l.filter p).length + l.countP (fun c => !p c) = l.length := by
  induction l with
  | nil => rfl
  | cons c rest ih =>
    by_cases h : p c = true <;>
      simp [List.filter_cons, List.countP_cons, h] <;> omega

/-- C1: for every code point `c`, the classification used by both operations
tags `c` as Allowed iff `32 ≤ c ≤ 126` or `c ∈ {9, 10, 13}`, and as Hidden
otherwise; it is total (a function of the code point alone), and the
condition tested in `show_hidden_chars` is the exact negation of the
condition tested in `clean_text_file`. -/
theorem classify_spec (c : Nat) :
    (classify c = Classification.Allowed ↔ ((32 ≤ c ∧ c ≤ 126) ∨ c = 9 ∨ c = 10 ∨ c = 13))
    ∧ (classify c = Classification.Hidden ↔ ¬ ((32 ≤ c ∧ c ≤ 126) ∨ c = 9 ∨ c = 10 ∨ c = 13))
    ∧ classify c = (if allowedCond c then Classification.Allowed else Classification.Hidden)
    ∧ showHiddenCond c = !(allowedCond c) := by
  refine ⟨?_, ?_, rfl, showHiddenCond_eq_not_allowed c⟩ <;>
    rw [← allowedCond_iff] <;> by_cases h : allowedCond c = true <;> simp [classify, h]

/-- C2: the clean pass keeps exactly the Allowed characters, in input order
(it equals `List.filter` with the allowed condition); on the code points of
"hello" ++ U+200B ++ "world" ++ U+200C ++ "test" it produces the code points
of "helloworldtest" and counts 2 hidden characters removed. -/
theorem clean_output_is_filter (content : List Nat) :
    (cleanPass content).1 = content.filter (fun c => allowedCond c)
    ∧ cleanPass [104, 101, 108, 108, 111, 8203, 119, 111, 114, 108, 100, 8204,
                 116, 101, 115, 116]
        = ([104, 101, 108, 108, 111, 119, 111, 114, 108, 100, 116, 101, 115, 116], 2) := by
  refine ⟨?_, by decide⟩
  rw [cleanPass_eq]

/-- C3: for every input, the cleaned length plus the hidden-removed count
equals the original length of the input. -/
theorem clean_length_invariant (content : List Nat) :
    (cleanPass content).1.length + (cleanPass content).2 = content.length := by
  rw [cleanPass_eq]
  exact length_filter_add_countP_not _ content

/-- C6: cleaning an already-clean input (all characters Allowed) returns the
input unchanged with a hidden-removed count of 0. -/
theorem clean_already_clean (content : List Nat)
    (h : ∀ c ∈ content, allowedCond c = true) :
    cleanPass content = (content, 0) := by
  rw [cleanPass_eq]
  refine Prod.ext ?_ ?_
  · simpa using List.filter_eq_self.mpr h
  · simp only [List.countP_eq_zero]
    intro a ha
    simp [h a ha]

theorem clean_already_clean_witness :
    (∀ c ∈ [104, 105, 10], allowedCond c = true)
    ∧ cleanPass [104, 105, 10] = ([104, 105, 10], 0) :=
  ⟨by decide, clean_already_clean [104, 105, 10] (by decide)⟩

/-- C10: for every input, every character the clean pass outputs satisfies
the allowed condition, so the pass is idempotent: run on its own output it
changes nothing and removes 0 further characters. -/
theorem clean_idempotent (content : List Nat) :
    (∀ c ∈ (cleanPass content).1, allowedCond c = true)
    ∧ cleanPass ((cleanPass content).1) = ((cleanPass content).1, 0) := by
  have hmem : ∀ c ∈ (cleanPass content).1, allowedCond c = true := by
    rw [cleanPass_eq]
    intro c hc
    exact (List.mem_filter.mp hc).2
  refine ⟨hmem, ?_⟩
  rw [cleanPass_eq ((cleanPass content).1)]
  refine Prod.ext ?_ ?_
  · simpa using List.filter_eq_self.mpr hmem
  · simp only [List.countP_eq_zero]
    intro a ha
    simp [hmem a ha]

theorem clean_idempotent_witness :
    104 ∈ (cleanPass [104, 8203, 105]).1
    ∧ allowedCond 104 = true
    ∧ cleanPass ((cleanPass [104, 8203, 105]).1) = ((cleanPass [104, 8203, 105]).1, 0) :=
  ⟨by decide, (clean_idempotent [104, 8203, 105]).1 104 (by decide),
    (clean_idempotent [104, 8203, 105]).2⟩

/-- The code points Python's `str.split()` (no separator argument) treats as
whitespace: the characters for which `str.isspace()` holds. -/
def pyWhitespace : List Nat :=
  [9, 10, 11, 12, 13, 28, 29, 30, 31, 32, 133, 160, 5760,
   8192, 8193, 8194, 8195, 8196, 8197, 8198, 8199, 8200, 8201, 8202,
   8232, 8233, 8239, 8287, 12288]

def isPySpace (c : Nat) : Bool := pyWhitespace.contains c

/-- The splitting pass of Python's `text.split()`: walk the text keeping the
current in-progress token reversed in `cur`; a whitespace character closes
the token (if nonempty), and any trailing token is closed at the end.
Empty tokens are never emitted. -/
def splitAux : List Nat → List Nat → List (List Nat)
  | [], cur => if cur = [] then [] else [cur.reverse]
  | c :: rest, cur =>
    if isPySpace c then
      if cur = [] then splitAux rest [] else cur.reverse :: splitAux rest []
    else splitAux rest (c :: cur)

/-- `text.split()` on a character stream. -/
def pySplit (text : List Nat) : List (List Nat) := splitAux text []

/-- `count_words` (src/vcleaner.py lines 13-15): `len(text.split())`. -/
def count_words (text : List Nat) : Nat := (pySplit text).length

theorem splitAux_all_space (text : List Nat) (h : ∀ c ∈ text, isPySpace c = true) :
    splitAux text [] = [] := by
  induction text with
  | nil => rfl
  | cons c rest ih =>
    have hc : isPySpace c = true := h c (List.mem_cons_self c rest)
    simp only [splitAux, hc, if_pos rfl, if_true]
    exact ih (fun a ha => h a (List.mem_cons_of_mem c ha))

theorem splitAux_space_nil (s : Nat) (hs : isPySpace s = true) (ys : List Nat) :
    splitAux (s :: ys) [] = splitAux ys [] := by
  simp [splitAux, hs]

theorem splitAux_dup_space (s : Nat) (hs : isPySpace s = true) (ys : List Nat) :
    ∀ (xs cur : List Nat),
      splitAux (xs ++ s :: s :: ys) cur = splitAux (xs ++ s :: ys) cur := by
  intro xs
  induction xs with
  | nil =>
    intro cur
    by_cases hc : cur = []
    · subst hc
      simp only [List.nil_append, splitAux_space_nil s hs]
    · simp only [List.nil_append, splitAux, hs, if_true, if_neg hc,
        splitAux_space_nil s hs]
  | cons c rest ih =>
    intro cur
    by_cases hsp : isPySpace c = true
    · by_cases hc : cur = []
      · simp only [List.cons_append, splitAux, hsp, if_true, if_pos hc]
        exact ih []
      · simp only [List.cons_append, splitAux, hsp, if_true, if_neg hc]
        exact congrArg _ (ih [])
    · simp only [List.cons_append, splitAux, hsp]
      exact ih (c :: cur)

theorem splitAux_no_empty_token (text : List Nat) :
    ∀ (cur w : List Nat), w ∈ splitAux text cur → w ≠ [] := by
  induction text with
  | nil =>
    intro cur w hw
    by_cases hc : cur = []
    · subst hc; simp [splitAux] at hw
    · simp only [splitAux, if_neg hc, List.mem_singleton] at hw
      subst hw
      simpa using hc
  | cons c rest ih =>
    intro cur w hw
    by_cases hsp : isPySpace c = true
    · by_cases hc : cur = []
      · rw [hc] at hw
        simp only [splitAux, hsp, if_true, if_pos rfl] at hw
        exact ih [] w hw
      · simp only [splitAux, hsp, if_true, if_neg hc, List.mem_cons] at hw
        rcases hw with hw | hw
        · subst hw; simpa using hc
        · exact ih [] w hw
    · simp only [splitAux, hsp] at hw
      exact ih (c :: cur) w hw

/-- C9: the word counter splits on runs of whitespace and discards empty
tokens: the four spec identities hold, a whitespace-only string counts 0
words, doubling a separator does not change the count (consecutive
separators collapse), and no token returned by the split is empty. -/
theorem count_words_spec :
    count_words [] = 0
    ∧ count_words [97] = 1
    ∧ count_words [97, 32, 32, 32, 98] = 2
    ∧ count_words [97, 10, 98, 9, 99] = 3
    ∧ (∀ text : List Nat, (∀ c ∈ text, isPySpace c = true) → count_words text = 0)
    ∧ (∀ (xs ys : List Nat) (s : Nat), isPySpace s = true →
        count_words (xs ++ s :: s :: ys) = count_words (xs ++ s :: ys))
    ∧ (∀ (text w : List Nat), w ∈ pySplit text → w ≠ []) := by
  refine ⟨by decide, by decide, by decide, by decide, ?_, ?_, ?_⟩
  · intro text h
    simp [count_words, pySplit, splitAux_all_space text h]
  · intro xs ys s hs
    simp [count_words, pySplit, splitAux_dup_space s hs ys xs []]
  · intro text w hw
    exact splitAux_no_empty_token text [] w hw

theorem count_words_spec_witness :
    count_words [32, 9, 10] = 0
    ∧ count_words ([97] ++ 32 :: 32 :: [98]) = count_words ([97] ++ 32 :: [98])
    ∧ [97] ∈ pySplit [97]
    ∧ [97] ≠ ([] : List Nat) :=
  ⟨count_words_spec.2.2.2.2.1 [32, 9, 10] (by decide),
   count_words_spec.2.2.2.2.2.1 [97] [98] 32 (by decide),
   by decide,
   count_words_spec.2.2.2.2.2.2 [97] [97] (by decide)⟩

/-- One step of the tally update of `show_hidden_chars` (src/vcleaner.py
lines 77-79): `if char not in hidden_chars: hidden_chars[char] = 0;
hidden_chars[char] += 1`.  The insertion-ordered Python dict is modelled as
an association list keyed by the character's code point. -/
def dictIncr : List (Nat × Nat) → Nat → List (Nat × Nat)
  | [], c => [(c, 1)]
  | (k, v) :: rest, c =>
    if k = c then (k, v + 1) :: rest else (k, v) :: dictIncr rest c

/-- The scanning loop of `show_hidden_chars` (src/vcleaner.py lines 74-80),
with the mutable `hidden_chars` dict and `total_hidden` counter passed as
accumulators. -/
def hiddenLoop : List Nat → List (Nat × Nat) → Nat → List (Nat × Nat) × Nat
  | [], hidden_chars, total_hidden => (hidden_chars, total_hidden)
  | char :: rest, hidden_chars, total_hidden =>
    if showHiddenCond char then
      hiddenLoop rest (dictIncr hidden_chars char) (total_hidden + 1)
    else hiddenLoop rest hidden_chars total_hidden

/-- The tally pass over a whole content stream, started from the empty dict
and a zero total, returning `(hidden_chars, total_hidden)`. -/
def hiddenPass (content : List Nat) : List (Nat × Nat) × Nat := hiddenLoop content [] 0

theorem dictIncr_sum (m : List (Nat × Nat)) (c : Nat) :
    ((dictIncr m c).map Prod.snd).sum = (m.map Prod.snd).sum + 1 := by
  induction m with
  | nil => simp [dictIncr]
  | cons kv rest ih =>
    obtain ⟨k, v⟩ := kv
    by_cases h : k = c
    · simp [dictIncr, h]
      omega
    · simp [dictIncr, h, ih]
      omega

theorem dictIncr_keys_of_mem (m : List (Nat × Nat)) (c : Nat)
    (h : c ∈ m.map Prod.fst) : (dictIncr m c).map Prod.fst = m.map Prod.fst := by
  induction m with
  | nil => simp at h
  | cons kv rest ih =>
    obtain ⟨k, v⟩ := kv
    by_cases hk : k = c
    · simp [dictIncr, hk]
    · simp only [List.map_cons, List.mem_cons] at h
      rcases h with h | h
      · exact absurd h.symm hk
      · simp [dictIncr, hk, ih h]

theorem dictIncr_keys_of_not_mem (m : List (Nat × Nat)) (c : Nat)
    (h : c ∉ m.map Prod.fst) :
    (dictIncr m c).map Prod.fst = m.map Prod.fst ++ [c] := by
  induction m with
  | nil => simp [dictIncr]
  | cons kv rest ih =>
    obtain ⟨k, v⟩ := kv
    simp only [List.map_cons, List.mem_cons, not_or] at h
    have hk : k ≠ c := fun hkc => h.1 hkc.symm
    simp [dictIncr, hk, ih h.2]

theorem dictIncr_keys_nodup (m : List (Nat × Nat)) (c : Nat)
    (h : (m.map Prod.fst).Nodup) : ((dictIncr m c).map Prod.fst).Nodup := by
  by_cases hc : c ∈ m.map Prod.fst
  · rw [dictIncr_keys_of_mem m c hc]; exact h
  · rw [dictIncr_keys_of_not_mem m c hc]
    simp [List.nodup_append, h, hc]

theorem dictIncr_keys_mem (m : List (Nat × Nat)) (c a : Nat) :
    a ∈ (dictIncr m c).map Prod.fst ↔ (a ∈ m.map Prod.fst ∨ a = c) := by
  by_cases hc : c ∈ m.map Prod.fst
  · rw [dictIncr_keys_of_mem m c hc]
    constructor
    · exact fun h => Or.inl h
    · rintro (h | rfl)
      · exact h
      · exact hc
  · rw [dictIncr_keys_of_not_mem m c hc]
    simp

theorem hiddenLoop_inv (content : List Nat) :
    ∀ (m : List (Nat × Nat)) (t : Nat),
      (m.map Prod.fst).Nodup → (m.map Prod.snd).sum = t →
      ((hiddenLoop content m t).1.map Prod.fst).Nodup
      ∧ ((hiddenLoop content m t).1.map Prod.snd).sum = (hiddenLoop content m t).2
      ∧ (∀ a, a ∈ (hiddenLoop content m t).1.map Prod.fst ↔
          (a ∈ m.map Prod.fst ∨ (a ∈ content ∧ showHiddenCond a = true))) := by
  induction content with
  | nil =>
    intro m t hnd hsum
    refine ⟨hnd, hsum, ?_⟩
    intro a
    simp [hiddenLoop]
  | cons char rest ih =>
    intro m t hnd hsum
    by_cases h : showHiddenCond char = true
    · have step : hiddenLoop (char :: rest) m t
          = hiddenLoop rest (dictIncr m char) (t + 1) := by
        simp [hiddenLoop, h]
      obtain ⟨ind, isum, imem⟩ :=
        ih (dictIncr m char) (t + 1) (dictIncr_keys_nodup m char hnd)
          (by rw [dictIncr_sum, hsum])
      rw [step]
      refine ⟨ind, isum, ?_⟩
      intro a
      rw [imem a, dictIncr_keys_mem]
      constructor
      · rintro ((ha | rfl) | ⟨ha, hh⟩)
        · exact Or.inl ha
        · exact Or.inr ⟨List.mem_cons_self _ _, h⟩
        · exact Or.inr ⟨List.mem_cons_of_mem char ha, hh⟩
      · rintro (ha | ⟨ha, hh⟩)
        · exact Or.inl (Or.inl ha)
        · rcases List.mem_cons.mp ha with rfl | ha
          · exact Or.inl (Or.inr rfl)
          · exact Or.inr ⟨ha, hh⟩
    · have step : hiddenLoop (char :: rest) m t = hiddenLoop rest m t := by
        simp [hiddenLoop, h]
      obtain ⟨ind, isum, imem⟩ := ih m t hnd hsum
      rw [step]
      refine ⟨ind, isum, ?_⟩
      intro a
      rw [imem a]
      constructor
      · rintro (ha | ⟨ha, hh⟩)
        · exact Or.inl ha
        · exact Or.inr ⟨List.mem_cons_of_mem char ha, hh⟩
      · rintro (ha | ⟨ha, hh⟩)
        · exact Or.inl ha
        · rcases List.mem_cons.mp ha with rfl | ha
          · exact absurd hh h
          · exact Or.inr ⟨ha, hh⟩

/-- C7: the inspect tally has exactly one entry per distinct Hidden
character encountered (its key list is duplicate-free and a code point is a
key iff it occurs in the input and is classified Hidden), and the counts in
the tally sum to the running total hidden-character count. -/
theorem hidden_tally_invariant (content : List Nat) :
    ((hiddenPass content).1.map Prod.fst).Nodup
    ∧ ((hiddenPass content).1.map Prod.snd).sum = (hiddenPass content).2
    ∧ (∀ a, a ∈ (hiddenPass content).1.map Prod.fst ↔
        (a ∈ content ∧ classify a = Classification.Hidden)) := by
  obtain ⟨hnd, hsum, hmem⟩ := hiddenLoop_inv content [] 0 (by simp) (by simp)
  refine ⟨hnd, hsum, ?_⟩
  intro a
  rw [hiddenPass, hmem a]
  have hcl : showHiddenCond a = true ↔ classify a = Classification.Hidden := by
    rw [showHiddenCond_eq_not_allowed]
    by_cases h : allowedCond a = true <;> simp [classify, h]
  simp [hcl]

/-- Insertion step of a stable descending-by-count sort: `x` goes after
every entry whose count exceeds `x`'s and before the first entry whose count
is at most `x`'s, so entries with equal counts keep their original order. -/
def insertByCount (x : Nat × Nat) : List (Nat × Nat) → List (Nat × Nat)
  | [] => [x]
  | y :: ys => if x.2 < y.2 then y :: insertByCount x ys else x :: y :: ys

/-- Models `sorted(hidden_chars.items(), key=lambda x: x[1], reverse=True)`
(src/vcleaner.py lines 85-87): Python's `sorted` with `reverse=True` is a
stable sort, non-increasing in the key; a stable insertion sort on the same
key produces the identical output list. -/
def sortByCountDesc : List (Nat × Nat) → List (Nat × Nat)
  | [] => []
  | x :: xs => insertByCount x (sortByCountDesc xs)

theorem mem_insertByCount (x a : Nat × Nat) (l : List (Nat × Nat))
    (h : a ∈ insertByCount x l) : a = x ∨ a ∈ l := by
  induction l with
  | nil => simpa [insertByCount] using h
  | cons y ys ih =>
    by_cases hx : x.2 < y.2
    · rw [insertByCount, if_pos hx] at h
      rcases List.mem_cons.mp h with rfl | h
      · exact Or.inr (List.mem_cons_self _ _)
      · rcases ih h with h | h
        · exact Or.inl h
        · exact Or.inr (List.mem_cons_of_mem y h)
    · rw [insertByCount, if_neg hx] at h
      rcases List.mem_cons.mp h with rfl | h
      · exact Or.inl rfl
      · exact Or.inr h

theorem pairwise_insertByCount (x : Nat × Nat) (l : List (Nat × Nat))
    (hl : l.Pairwise (fun a b => b.2 ≤ a.2)) :
    (insertByCount x l).Pairwise (fun a b => b.2 ≤ a.2) := by
  induction l with
  | nil => simp [insertByCount]
  | cons y ys ih =>
    rw [List.pairwise_cons] at hl
    obtain ⟨hy, hys⟩ := hl
    by_cases hx : x.2 < y.2
    · rw [insertByCount, if_pos hx, List.pairwise_cons]
      refine ⟨?_, ih hys⟩
      intro a ha
      rcases mem_insertByCount x a ys ha with rfl | ha
      · exact Nat.le_of_lt hx
      · exact hy a ha
    · rw [insertByCount, if_neg hx, List.pairwise_cons]
      refine ⟨?_, List.Pairwise.cons hy hys⟩
      intro a ha
      rcases List.mem_cons.mp ha with rfl | ha
      · exact Nat.le_of_not_lt hx
      · exact Nat.le_trans (hy a ha) (Nat.le_of_not_lt hx)

theorem perm_insertByCount (x : Nat × Nat) (l : List (Nat × Nat)) :
    List.Perm (insertByCount x l) (x :: l) := by
  induction l with
  | nil => simp [insertByCount]
  | cons y ys ih =>
    by_cases hx : x.2 < y.2
    · rw [insertByCount, if_pos hx]
      exact List.Perm.trans (List.Perm.cons y ih) (List.Perm.swap x y ys)
    · rw [insertByCount, if_neg hx]

theorem filter_insertByCount (x : Nat × Nat) (l : List (Nat × Nat)) (k : Nat) :
    (insertByCount x l).filter (fun p => p.2 == k)
      = if x.2 = k then x :: l.filter (fun p => p.2 == k)
        else l.filter (fun p => p.2 == k) := by
  induction l with
  | nil =>
    by_cases hk : x.2 = k <;> simp [insertByCount, List.filter_cons, hk]
  | cons y ys ih =>
    by_cases hx : x.2 < y.2
    · rw [insertByCount, if_pos hx]
      by_cases hk : x.2 = k
      · have hyk : (y.2 == k) = false := by
          subst hk
          simp [Nat.ne_of_gt hx]
        rw [if_pos hk]
        rw [List.filter_cons, hyk]
        simp only [Bool.false_eq_true, if_false]
        rw [ih, if_pos hk]
        rw [List.filter_cons, hyk]
        simp
      · rw [if_neg hk]
        rw [List.filter_cons]
        rw [List.filter_cons]
        rw [ih, if_neg hk]
    · rw [insertByCount, if_neg hx]
      by_cases hk : x.2 = k
      · rw [if_pos hk, List.filter_cons]
        simp [hk]
      · rw [if_neg hk, List.filter_cons]
        have hxk : (x.2 == k) = false := by simp [hk]
        rw [hxk]
        simp

theorem sortByCountDesc_pairwise (l : List (Nat × Nat)) :
    (sortByCountDesc l).Pairwise (fun a b => b.2 ≤ a.2) := by
  induction l with
  | nil => simp [sortByCountDesc]
  | cons x xs ih => exact pairwise_insertByCount x (sortByCountDesc xs) ih

theorem sortByCountDesc_perm (l : List (Nat × Nat)) :
    List.Perm (sortByCountDesc l) l := by
  induction l with
  | nil => exact List.Perm.refl []
  | cons x xs ih =>
    exact List.Perm.trans (perm_insertByCount x (sortByCountDesc xs))
      (List.Perm.cons x ih)

theorem sortByCountDesc_filter (l : List (Nat × Nat)) (k : Nat) :
    (sortByCountDesc l).filter (fun p => p.2 == k)
      = l.filter (fun p => p.2 == k) := by
  induction l with
  | nil => rfl
  | cons x xs ih =>
    rw [sortByCountDesc, filter_insertByCount]
    by_cases hk : x.2 = k
    · rw [if_pos hk, ih, List.filter_cons]
      simp [hk]
    · rw [if_neg hk, ih, List.filter_cons]
      have hxk : (x.2 == k) = false := by simp [hk]
      rw [hxk]
      simp

/-- The per-entry report line of `show_hidden_chars`
(src/vcleaner.py line 88): `  Find (ASCII {ord(char)}): {count} characters`. -/
def entryLine (p : Nat × Nat) : String :=
  "  Find (ASCII " ++ toString p.1 ++ "): " ++ toString p.2 ++ " characters"

/-- The full sequence of lines printed by `show_hidden_chars` on a
successful read (src/vcleaner.py lines 68-94), one list element per `print`
call. -/
def showReport (content : List Nat) : List String :=
  let original_length := content.length
  let original_words := count_words content
  let hp := hiddenPass content
  (if hp.1 = [] then
    ["", "No hidden characters found! Your file is clean"]
  else
    "" :: "Invisible characters found:" ::
      ((sortByCountDesc hp.1).map entryLine
        ++ [" Total Invisible Characters: " ++ toString hp.2 ++ " characters"]))
  ++ ["  Original Length: " ++ toString original_length,
      "  Number of Words: " ++ toString original_words ++ "\n"]

/-- C8: when at least one hidden character was found, the inspect report
prints one line per distinct hidden character, ordered by occurrence count
descending, with the total hidden-character count printed after the
listing; the printed entries are exactly the tally's entries
(a permutation), and ties are broken deterministically by first-encountered
order (filtering the sorted list to any fixed count gives the tally's
entries with that count, unchanged in order). -/
theorem show_report_sorted (content : List Nat)
    (h : (hiddenPass content).1 ≠ []) :
    showReport content =
      "" :: "Invisible characters found:" ::
        ((sortByCountDesc (hiddenPass content).1).map entryLine
          ++ [" Total Invisible Characters: "
                ++ toString (hiddenPass content).2 ++ " characters",
              "  Original Length: " ++ toString content.length,
              "  Number of Words: " ++ toString (count_words content) ++ "\n"])
    ∧ (sortByCountDesc (hiddenPass content).1).Pairwise (fun a b => b.2 ≤ a.2)
    ∧ List.Perm (sortByCountDesc (hiddenPass content).1) (hiddenPass content).1
    ∧ (∀ k, (sortByCountDesc (hiddenPass content).1).filter (fun p => p.2 == k)
        = (hiddenPass content).1.filter (fun p => p.2 == k)) := by
  refine ⟨?_, sortByCountDesc_pairwise _, sortByCountDesc_perm _,
    fun k => sortByCountDesc_filter _ k⟩
  rw [showReport]
  simp only [if_neg h, List.cons_append, List.append_assoc]
  rfl

theorem show_report_sorted_witness :
    (hiddenPass [104, 8203, 105, 8204, 8204]).1 ≠ []
    ∧ (sortByCountDesc (hiddenPass [104, 8203, 105, 8204, 8204]).1).Pairwise
        (fun a b => b.2 ≤ a.2) :=
  ⟨by decide, (show_report_sorted [104, 8203, 105, 8204, 8204] (by decide)).2.1⟩

/-- The outcome the file-reader collaborator reports for a path: the decoded
content, a file-not-found condition (Python `FileNotFoundError`), or any
other I/O failure (a different `OSError`, e.g. a permission error) carrying
its message. -/
inductive ReadResult : Type where
  | ok : List Nat → ReadResult
  | fileNotFound : ReadResult
  | ioError : String → ReadResult

/-- The outcome the file-writer collaborator reports: success, or an I/O
failure carrying its message. -/
inductive WriteResult : Type where
  | ok : WriteResult
  | ioError : String → WriteResult

/-- How a modelled Python function call ends: returning normally with a
value, or with an uncaught exception propagating out of it. -/
inductive PyOutcome (α : Type) : Type where
  | normal : α → PyOutcome α
  | raised : String → PyOutcome α

def PyOutcome.propagates {α : Type} : PyOutcome α → Bool
  | PyOutcome.normal _ => false
  | PyOutcome.raised _ => true

/-- What a run of `clean_text_file` produced: the lines printed (one element
per `print` call) and the file written, if any, as output path and content. -/
structure CleanResult : Type where
  printed : List String
  written : Option (String × List Nat)
deriving DecidableEq

/-- `clean_text_file` (src/vcleaner.py lines 18-57).  The whole body sits in
a `try` whose handlers catch `FileNotFoundError` (printing a message with
the input path) and then every other `Exception` (printing the error's own
message), so no branch raises.  The read happens first; the write only
after the content was read and filtered. -/
def clean_text_file (input_file output_file : String) (r : ReadResult)
    (w : WriteResult) : PyOutcome CleanResult :=
  match r with
  | ReadResult.fileNotFound =>
      PyOutcome.normal
        ⟨["Error: File \x27" ++ input_file ++ "\x27 not found!"], none⟩
  | ReadResult.ioError msg => PyOutcome.normal ⟨["Error: " ++ msg], none⟩
  | ReadResult.ok content =>
      let original_length := content.length
      let original_words := count_words content
      let cp := cleanPass content
      match w with
      | WriteResult.ioError msg =>
          PyOutcome.normal
            ⟨["\nOriginal length: " ++ toString original_length ++ " characters",
              "Number of Words: " ++ toString original_words,
              "Error: " ++ msg], none⟩
      | WriteResult.ok =>
          PyOutcome.normal
            ⟨["\nOriginal length: " ++ toString original_length ++ " characters",
              "Number of Words: " ++ toString original_words,
              "Cleaned Length: " ++ toString cp.1.length ++ " characters",
              "Invisible characters removed: " ++ toString cp.2,
              "Words count: " ++ toString (count_words cp.1),
              "Clean version of file saved to: " ++ output_file ++ "\n"],
             some (output_file, cp.1)⟩

/-- `show_hidden_chars` (src/vcleaner.py lines 60-97).  Its `try` has a
single handler, `except FileNotFoundError`; a read failure that is not
file-not-found is caught by nothing and propagates out of the function. -/
def show_hidden_chars (input_file : String) (r : ReadResult) :
    PyOutcome (List String) :=
  match r with
  | ReadResult.ok content => PyOutcome.normal (showReport content)
  | ReadResult.fileNotFound =>
      PyOutcome.normal ["Error: File \x27" ++ input_file ++ "\x27 not found!"]
  | ReadResult.ioError msg => PyOutcome.raised msg

/-- C4 counterexample: a read failure that is not file-not-found (e.g. a
permission error) propagates out of `show_hidden_chars` uncaught, because
its only handler is `except FileNotFoundError` — contradicting the claim
that no error propagates out of either operation. -/
theorem show_hidden_propagates_other_error :
    show_hidden_chars "data.txt" (ReadResult.ioError "Permission denied")
      = PyOutcome.raised "Permission denied"
    ∧ (show_hidden_chars "data.txt"
        (ReadResult.ioError "Permission denied")).propagates = true :=
  ⟨rfl, rfl⟩

/-- C4 (amended): `clean_text_file` converts every read or write failure to
a printed message and never lets an error propagate; `show_hidden_chars`
handles a successful read and the file-not-found condition without raising,
but re-raises any other read failure. -/
theorem error_boundary_amended :
    (∀ (input_file output_file : String) (r : ReadResult) (w : WriteResult),
      (clean_text_file input_file output_file r w).propagates = false)
    ∧ (∀ (input_file : String) (content : List Nat),
        (show_hidden_chars input_file (ReadResult.ok content)).propagates = false)
    ∧ (∀ input_file : String,
        (show_hidden_chars input_file ReadResult.fileNotFound).propagates = false)
    ∧ (∀ (input_file msg : String),
        show_hidden_chars input_file (ReadResult.ioError msg)
          = PyOutcome.raised msg) := by
  refine ⟨?_, fun _ _ => rfl, fun _ => rfl, fun _ _ => rfl⟩
  intro input_file output_file r w
  cases r with
  | ok content => cases w <;> rfl
  | fileNotFound => rfl
  | ioError msg => rfl

/-- C5: on a file-not-found input path, both operations return normally
(no exception), print a message that embeds the literal input path, and the
clean operation writes no output file at all. -/
theorem file_not_found_contract (p out : String) (w : WriteResult) :
    clean_text_file p out ReadResult.fileNotFound w
      = PyOutcome.normal ⟨["Error: File \x27" ++ p ++ "\x27 not found!"], none⟩
    ∧ show_hidden_chars p ReadResult.fileNotFound
      = PyOutcome.normal ["Error: File \x27" ++ p ++ "\x27 not found!"] :=
  ⟨rfl, rfl⟩

end VCleaner
